import Mathlib

/-!
Verification of a tabular reinforcement-learning core
(`simpleai/machine_learning/reinforcement_learning.py`): a state-action
value table with two temporal-difference update rules (Q-learning and
SARSA), two exploration strategies (optimistic-count and Boltzmann/softmax)
and an exponential temperature schedule.

Modelling conventions:
* Python `dict` / `defaultdict` objects are modelled by `DD`, an
  insertion-ordered association list with unique keys.  A `defaultdict`
  read is split into the returned value (`DD.getV`) and the
  possibly-extended dictionary (`DD.getM`), since reading a missing key
  stores the default.  A `collections.Counter` read (`DD.cget`) returns 0
  for a missing key without storing it.
* Numeric utilities and rewards are modelled by an arbitrary linear
  ordered field (instantiated at `ℚ` or `ℝ`); the temperature schedule and
  the softmax computation, which use `math.exp`, are modelled over `ℝ`
  with `Real.exp`.
* A Python exception is modelled by `Option.none` in the result: a
  function that can raise returns `Option` and yields `none` on the
  raising path.
* Python's `None` is a first-class dictionary key, so state and action
  keys of the tables are `Option S` and `Option A`.
-/

set_option autoImplicit false

namespace SimpleAI

universe u v

variable {K : Type u} {V : Type v} [DecidableEq K]

/-- Association-list model of a Python `dict`: insertion-ordered entries,
keys unique (writes replace in place, fresh keys are appended). -/
structure DD (K : Type u) (V : Type v) where
  entries : List (K × V)
deriving DecidableEq

/-- First-match lookup in an association list. -/
def lookupD : List (K × V) → K → Option V
  | [], _ => none
  | (k', v) :: t, k => if k = k' then some v else lookupD t k

/-- `d[k]` lookup without default handling (`dict.__getitem__` when the key
is present; `none` models a missing key). -/
def DD.find (d : DD K V) (k : K) : Option V := lookupD d.entries k

/-- The empty dictionary (`dict()` / fresh `defaultdict`). -/
def DD.empty : DD K V := ⟨[]⟩

/-- Value returned by a `defaultdict` read `d[k]` with default `dflt`. -/
def DD.getV (d : DD K V) (dflt : V) (k : K) : V := (d.find k).getD dflt

/-- Dictionary state after a `defaultdict` read `d[k]`: reading a missing
key stores the default (auto-vivification). -/
def DD.getM (d : DD K V) (dflt : V) (k : K) : DD K V :=
  match d.find k with
  | some _ => d
  | none => ⟨d.entries ++ [(k, dflt)]⟩

/-- In-place write helper: replace the value at the first occurrence of the
key, or append a fresh entry. -/
def setE : List (K × V) → K → V → List (K × V)
  | [], k, v => [(k, v)]
  | (k', v') :: t, k, v => if k = k' then (k, v) :: t else (k', v') :: setE t k v

/-- `d[k] = v` (`dict.__setitem__`). -/
def DD.set (d : DD K V) (k : K) (v : V) : DD K V := ⟨setE d.entries k v⟩

/-- `d.values()` (entries are insertion-ordered with unique keys). -/
def DD.values (d : DD K V) : List V := d.entries.map Prod.snd

/-- A `collections.Counter` read: 0 for a missing key, nothing stored. -/
def DD.cget (d : DD K ℕ) (k : K) : ℕ := (d.find k).getD 0

/-- Python `max` over a list (`none` models the `ValueError` raised by
`max` of an empty sequence). -/
def pyMax {W : Type v} [LinearOrder W] : List W → Option W
  | [] => none
  | h :: t => some (t.foldl max h)

/-- Python `min` over a list (`none` on the empty sequence). -/
def pyMin {W : Type v} [LinearOrder W] : List W → Option W
  | [] => none
  | h :: t => some (t.foldl min h)

/-! ### Learner state (`QLearner.__init__`) -/

variable {S : Type} {A : Type} {W : Type} {P : Type}

/-- Mutable state of a `QLearner` instance: the value table `Q`
(`defaultdict` of `defaultdict(0)`), the last state/action/reward, the
visitation counter (`defaultdict` of `Counter`) and the trial count.
Since Python's `None` can be stored in (and used as a key of) the same
dictionaries as states and actions, keys are `Option S` / `Option A`. -/
structure LState (S A W : Type) where
  Q : DD (Option S) (DD (Option A) W)
  last_state : Option S
  last_action : Option A
  counter : DD (Option S) (DD (Option A) ℕ)
  trials : ℕ
  last_reward : Option W
deriving DecidableEq

/-- State built by `QLearner.__init__` with no seeded `Q` table. -/
def initLState (S A W : Type) : LState S A W :=
  ⟨DD.empty, none, none, DD.empty, 0, none⟩

/-- `Q[s][a]` as read through the two default-0 layers (missing outer or
inner entries read as 0): the observable value-table content. -/
def qval [DecidableEq S] [DecidableEq A] [Zero W]
    (Q : DD (Option S) (DD (Option A) W)) (s : Option S) (a : Option A) : W :=
  (Q.getV DD.empty s).getV 0 a

/-- The entry stored at `Q[s][a]`, if both levels have an explicit entry. -/
def qfind [DecidableEq S] [DecidableEq A]
    (Q : DD (Option S) (DD (Option A) W)) (s : Option S) (a : Option A) : Option W :=
  (Q.find s).bind fun d => d.find a

/-- Whether `Q[s][a]` has an explicit entry at both levels. -/
def hasEntry [DecidableEq S] [DecidableEq A]
    (Q : DD (Option S) (DD (Option A) W)) (s : Option S) (a : Option A) : Bool :=
  (qfind Q s a).isSome

/-- `counter[s][a]` as read through the defaultdict/Counter layers. -/
def cnt [DecidableEq S] [DecidableEq A]
    (c : DD (Option S) (DD (Option A) ℕ)) (s : Option S) (a : Option A) : ℕ :=
  (c.getV DD.empty s).cget a

/-- `QLearner.set_reward(reward, terminal)`: store `last_reward`; if
`terminal`, increment `trials` and overwrite `Q[last_state][last_action]`
with the raw reward (the read of `Q[last_state]` is a `defaultdict` read,
inserting an empty inner table for a never-seen `last_state`). -/
def set_reward [DecidableEq S] [DecidableEq A]
    (st : LState S A W) (reward : W) (terminal : Bool) : LState S A W :=
  let st₁ := { st with last_reward := some reward }
  if terminal then
    let inner := st₁.Q.getV DD.empty st₁.last_state
    let Q₁ := st₁.Q.getM DD.empty st₁.last_state
    { st₁ with
      trials := st₁.trials + 1,
      Q := Q₁.set st₁.last_state (inner.set st₁.last_action reward) }
  else st₁

/-! ### Update rules (`QLearner.learning_rate`, `TD_QLearner.update_rule`,
`SARSA_Learner.update_rule`) -/

/-- `QLearner.learning_rate(n) = min(1, temperature_function(n))`. -/
def learning_rate [LinearOrderedField W] (tf : ℕ → W) (n : ℕ) : W := min 1 (tf n)

/-- The utilities recorded for successor state `cs` (`Q[cs].values()`,
empty when `cs` has no explicit inner table). -/
def innerValues [DecidableEq S] [DecidableEq A]
    (Q : DD (Option S) (DD (Option A) W)) (cs : S) : List W :=
  (Q.getV DD.empty (some cs)).values

/-- `TD_QLearner.update_rule(s, a, r, cs, ca)`:
`Q[s][a] += lr * (r + discount_factor * max(Q[cs].values()) - Q[s][a])`
with `lr = learning_rate(counter[s][a])`.  Dictionary reads are spelled in
Python evaluation order: `counter[s]` (defaultdict read), then `Q[s]` and
`Q[s][a]` (both defaultdict reads, inserting defaults), then `Q[cs]`
(defaultdict read on the updated table).  `max` of the empty values list
raises `ValueError` (`none`); `r = None` raises `TypeError` (`none`),
which in Python occurs after `max` has been evaluated. -/
def update_rule_TD [DecidableEq S] [DecidableEq A] [LinearOrderedField W]
    (df : W) (tf : ℕ → W) (s : Option S) (a : Option A) (r : Option W) (cs : S)
    (ca : Option A) (st : LState S A W) : Option (LState S A W) :=
  let cinner := st.counter.getV DD.empty s
  let counter₁ := st.counter.getM DD.empty s
  let lr := learning_rate tf (cinner.cget a)
  let qinner := st.Q.getV DD.empty s
  let Q₁ := st.Q.getM DD.empty s
  let q₀ := qinner.getV 0 a
  let qinner₁ := qinner.getM 0 a
  let Q₂ := Q₁.set s qinner₁
  let csinner := Q₂.getV DD.empty (some cs)
  let Q₃ := Q₂.getM DD.empty (some cs)
  match pyMax csinner.values with
  | none => none
  | some mx =>
    match r with
    | none => none
    | some rv =>
      let qinner₂ := Q₃.getV DD.empty s
      some { st with
        Q := (Q₃.getM DD.empty s).set s (qinner₂.set a (q₀ + lr * (rv + df * mx - q₀))),
        counter := counter₁ }

/-- `SARSA_Learner.update_rule(s, a, r, cs, ca)`:
`Q[s][a] += lr * (r + discount_factor * Q[cs][ca] - Q[s][a])` with
`lr = learning_rate(counter[s][a])`.  `Q[cs]` and `Q[cs][ca]` are
defaultdict reads (a missing `Q[cs][ca]` reads as 0 and is inserted);
`r = None` raises `TypeError` (`none`). -/
def update_rule_SARSA [DecidableEq S] [DecidableEq A] [LinearOrderedField W]
    (df : W) (tf : ℕ → W) (s : Option S) (a : Option A) (r : Option W) (cs : S)
    (ca : Option A) (st : LState S A W) : Option (LState S A W) :=
  let cinner := st.counter.getV DD.empty s
  let counter₁ := st.counter.getM DD.empty s
  let lr := learning_rate tf (cinner.cget a)
  let qinner := st.Q.getV DD.empty s
  let Q₁ := st.Q.getM DD.empty s
  let q₀ := qinner.getV 0 a
  let qinner₁ := qinner.getM 0 a
  let Q₂ := Q₁.set s qinner₁
  let csinner := Q₂.getV DD.empty (some cs)
  let Q₃ := Q₂.getM DD.empty (some cs)
  let b := csinner.getV 0 ca
  let csinner₁ := csinner.getM 0 ca
  let Q₄ := Q₃.set (some cs) csinner₁
  match r with
  | none => none
  | some rv =>
    let qinner₂ := Q₄.getV DD.empty s
    some { st with
      Q := (Q₄.getM DD.empty s).set s (qinner₂.set a (q₀ + lr * (rv + df * b - q₀))),
      counter := counter₁ }

/-! ### Temperature schedule (`make_exponential_temperature`) -/

/-- Threshold above which `math.exp` raises `OverflowError` on IEEE-754
doubles (the logarithm of the largest double is about 709.78); the model
uses the fixed bound 709.  Underflow of `math.exp` to `0.0` for very
negative arguments (a float artifact) is not modelled: `Real.exp` is
always positive. -/
def expOverflowBound : ℝ := 709

open Classical in
/-- `math.exp`: `none` models the `OverflowError` raised for large
arguments. -/
noncomputable def pyExp (x : ℝ) : Option ℝ :=
  if x > expOverflowBound then none else some (Real.exp x)

/-- `make_exponential_temperature(initial_temperature, alpha)`: the
schedule `n ↦ initial_temperature / exp(n * alpha)`, returning the fixed
floor `0.01` when `math.exp` overflows (`try ... except OverflowError`). -/
noncomputable def make_exponential_temperature (initial_temperature alpha : ℝ) :
    ℕ → ℝ := fun n =>
  match pyExp ((n : ℝ) * alpha) with
  | none => 0.01
  | some e => initial_temperature / e

/-! ### Exploration strategies -/

/-- Type of an exploration function as called by `QLearner.step`:
`(actions, Q[state], temperature, counter[state]) ↦ chosen action`.
Since the `Q[state]` inner table is mutated by the strategy's utility
reads, the updated table is returned alongside; `none` models an
exception escaping the strategy. -/
def ExplF (A : Type) (W : Type) : Type :=
  List A → DD (Option A) W → W → DD (Option A) ℕ → Option (A × DD (Option A) W)

/-- `[utilities[x] for x in actions]`: sequential defaultdict reads, each
possibly inserting the default for a missing key. -/
def readAll [DecidableEq A] (d : DD (Option A) W) (dflt : W) :
    List A → List W × DD (Option A) W
  | [] => ([], d)
  | x :: xs =>
    let v := d.getV dflt (some x)
    let res := readAll (d.getM dflt (some x)) dflt xs
    (v :: res.1, res.2)

/-- Modelled from the spec: `argmax` is imported from
`simpleai.search.utils`, whose source is not included under `src/`; per
the spec the strategy returns "the action with the maximum (possibly
overridden) utility ..., ties broken by first-encountered order in
`actions`", so `argmax` returns the first element attaining the maximum
function value (`none` on an empty sequence). -/
def argmax [LinearOrder W] (f : A → W) : List A → Option A
  | [] => none
  | x :: xs =>
    match argmax f xs with
    | none => some x
    | some b => if f b > f x then some b else some x

/-- Lookup in the dictionary built by Python `dict(pairs)`: for duplicate
keys the last write wins. -/
def dlookupLast [DecidableEq A] : List (A × W) → A → Option W
  | [], _ => none
  | (k, v) :: t, a =>
    match dlookupLast t a with
    | some w => some w
    | none => if a = k then some v else none

/-- `make_at_least_n_times(optimistic_reward, min_n)`: read each
candidate's utility from the `Q[state]` defaultdict (inserting missing
entries as 0), override the utility of every action whose visitation
count is below `min_n` with `optimistic_reward`, build
`d = dict(zip(actions, utilities))` and return `argmax(actions, lambda
a: d[a])`, together with the mutated utility table.  `action_counter`
reads are `Counter` reads (no insertion); the `temperature` argument is
ignored, as in the source. -/
def at_least_n_times_exploration [DecidableEq A] [LinearOrder W] [Zero W]
    (optimistic_reward : W) (min_n : ℕ) : ExplF A W :=
  fun actions utilities _temperature action_counter =>
    let res := readAll utilities 0 actions
    let us := (actions.zip res.1).map fun p =>
      if action_counter.cget (some p.1) < min_n then optimistic_reward else p.2
    let d := actions.zip us
    match argmax (fun x => (dlookupLast d x).getD 0) actions with
    | none => none
    | some r => some (r, res.2)

/-- The effective utility the spec attributes to the optimistic-count
strategy: `optimistic_reward` for an action visited fewer than `min_n`
times, its default-0 table utility otherwise (stated from the spec's
words, for comparison with the implementation). -/
def effectiveUtility [DecidableEq A] [Zero W] (optimistic_reward : W) (min_n : ℕ)
    (utilities : DD (Option A) W) (action_counter : DD (Option A) ℕ) (x : A) : W :=
  if action_counter.cget (some x) < min_n then optimistic_reward
  else utilities.getV 0 (some x)

open Classical in
/-- The sampling loop of `boltzmann_exploration`
(`i = 0; tot = probs[0]; while i < len(actions) and r >= tot: i += 1;
tot += probs[i]`), called with `tot = probs[0]`, `rest` the remaining
probabilities and `i = 0`.  Walking past the end of the list models the
`IndexError` of `tot += probs[i]` (`none`); Python's `i < len(actions)`
guard is unreachable as an exit, since the out-of-range access happens
first. -/
noncomputable def cdfLoop (r : ℝ) : ℝ → List ℝ → ℕ → Option ℕ
  | tot, rest, i =>
    if r < tot then some i
    else
      match rest with
      | [] => none
      | p :: rest' => cdfLoop r (tot + p) rest' (i + 1)

open Classical in
/-- `boltzmann_exploration(actions, utilities, temperature, action_counter)`:
reads each candidate utility from the `Q[state]` defaultdict (inserting
missing entries as 0), floors the temperature at 0.01, and:
* if all candidate utilities are equal, returns `random.choice(actions)`
  — the uniform draw is modelled by the supplied index
  `choiceIdx % len(actions)`;
* otherwise min-max-normalizes the utilities, exponentiates and divides
  by the total to get probabilities, then samples by
  cumulative-distribution inversion using the uniform draw `r`
  (`random.random()`).
`none` models an exception escaping (`max`/`min` of an empty sequence, or
the sampling index running past the end of `probs`).  The
`action_counter` argument is unused, as in the source; the mutated
utility table is returned alongside the chosen action. -/
noncomputable def boltzmann_exploration [DecidableEq A] (choiceIdx : ℕ) (r : ℝ) :
    ExplF A ℝ :=
  fun actions utilities temperature _action_counter =>
    let res := readAll utilities 0 actions
    let us := res.1
    let temp := max temperature 0.01
    match pyMax us, pyMin us with
    | some mx, some mn =>
      if mx = mn then
        match actions.get? (choiceIdx % actions.length) with
        | none => none
        | some act => some (act, res.2)
      else
        let es := us.map fun u => Real.exp (((u - mn) / (mx - mn)) / temp)
        let probs := es.map fun u => u / es.sum
        match probs with
        | [] => none
        | p :: ps =>
          match cdfLoop r p ps 0 with
          | none => none
          | some i =>
            match actions.get? i with
            | none => none
            | some act => some (act, res.2)
    | _, _ => none

/-! ### The step state machine (`QLearner.step`) -/

/-- Type of an update rule as called by `step`:
`(s, a, last_reward, state, current_action, learner state) ↦ new learner
state`, `none` modelling an exception escaping the update. -/
def UpdF (S A W : Type) : Type :=
  Option S → Option A → Option W → S → Option A → LState S A W → Option (LState S A W)

/-- `QLearner.step(percept)`: derive `state = update_state(percept)`; if
`actions(state)` is non-empty (modelled by matching on the list), choose
`current_action` via the exploration function called on `actions`,
`Q[state]`, `temperature_function(trials)` and `counter[state]` (the two
dictionary reads are defaultdict reads and the exploration function
mutates the `Q[state]` inner table through its utility reads); otherwise
`current_action = None` with no exploration call.  Then, if a previous
`last_state` exists, increment `counter[last_state][last_action]` and
apply the update rule to `(last_state, last_action, last_reward, state,
current_action)`.  Finally store `state`/`current_action` as
`last_state`/`last_action` and return `current_action`.  `none` models an
exception raised by the exploration function or the update rule. -/
def step [DecidableEq S] [DecidableEq A]
    (explore : ExplF A W) (update : UpdF S A W) (actionsOf : S → List A)
    (update_state : P → S) (tf : ℕ → W) (st : LState S A W) (percept : P) :
    Option (Option A × LState S A W) :=
  let s := st.last_state
  let a := st.last_action
  let state := update_state percept
  let expl : Option (Option A × LState S A W) :=
    match actionsOf state with
    | [] => some (none, st)
    | a₀ :: rest =>
      let qinner := st.Q.getV DD.empty (some state)
      let Q₁ := st.Q.getM DD.empty (some state)
      let cinner := st.counter.getV DD.empty (some state)
      let counter₁ := st.counter.getM DD.empty (some state)
      match explore (a₀ :: rest) qinner (tf st.trials) cinner with
      | none => none
      | some (act, qinner') =>
        some (some act,
          { st with Q := Q₁.set (some state) qinner', counter := counter₁ })
  match expl with
  | none => none
  | some (current_action, st₁) =>
    let next : Option (LState S A W) :=
      match s with
      | none => some st₁
      | some _ =>
        let cinner := st₁.counter.getV DD.empty s
        let counter₁ := st₁.counter.getM DD.empty s
        let st₂ := { st₁ with
          counter := counter₁.set s (cinner.set a (cinner.cget a + 1)) }
        update s a st₂.last_reward state current_action st₂
    match next with
    | none => none
    | some st₃ =>
      some (current_action,
        { st₃ with last_state := some state, last_action := current_action })

/-! ### C10: the step populates `Q[state]` entries for all candidate
actions -/

/-- An update rule that never deletes value-table entries: every `(s, a)`
entry present before a successful update is still present after.  Both
repository update rules satisfy this. -/
def updatePreserves [DecidableEq S] [DecidableEq A] (update : UpdF S A W) : Prop :=
  ∀ s a r cs ca st st', update s a r cs ca st = some st' →
    ∀ k k', hasEntry st.Q k k' = true → hasEntry st'.Q k k' = true

/-- A trivially entry-preserving update rule (always raises) used to
instantiate the C10 statement at a concrete input whose step does not
reach the update phase. -/
def c10updNone : UpdF ℕ ℕ ℚ := fun _ _ _ _ _ _ => none

/-- Real-valued variant of `c10updNone`. -/
def c10updNoneR : UpdF ℕ ℕ ℝ := fun _ _ _ _ _ _ => none

/-- Learner state after one optimistic-count step of a fresh learner on
actions `[0, 1]` (both entries inserted with utility 0). -/
def c10stA : LState ℕ ℕ ℚ :=
  ⟨⟨[(some 0, ⟨[(some 0, 0), (some 1, 0)]⟩)]⟩, some 0, some 0,
    ⟨[(some 0, ⟨[]⟩)]⟩, 0, none⟩

/-- Learner state after one Boltzmann step of a fresh learner on actions
`[0, 1]` (degenerate all-equal branch; both entries inserted with
utility 0). -/
def c10stB : LState ℕ ℕ ℝ :=
  ⟨⟨[(some 0, ⟨[(some 0, 0), (some 1, 0)]⟩)]⟩, some 0, some 0,
    ⟨[(some 0, ⟨[]⟩)]⟩, 0, none⟩

/-! ### Theorems -/

theorem lookupD_append (l₁ l₂ : List (K × V)) (k : K) :
    lookupD (l₁ ++ l₂) k =
      match lookupD l₁ k with
      | some v => some v
      | none => lookupD l₂ k := by
  induction l₁ with
  | nil => simp [lookupD]
  | cons h t ih =>
    obtain ⟨k', v⟩ := h
    by_cases hk : k = k' <;> simp [lookupD, hk, ih]

theorem lookupD_setE_self (l : List (K × V)) (k : K) (v : V) :
    lookupD (setE l k v) k = some v := by
  induction l with
  | nil => simp [setE, lookupD]
  | cons h t ih =>
    obtain ⟨k', v'⟩ := h
    by_cases hk : k = k'
    · subst hk; simp [setE, lookupD]
    · simp [setE, lookupD, Ne.symm hk, hk, ih]

theorem lookupD_setE_ne (l : List (K × V)) (k k' : K) (v : V) (h : k' ≠ k) :
    lookupD (setE l k v) k' = lookupD l k' := by
  induction l with
  | nil => simp [setE, lookupD, h]
  | cons hd t ih =>
    obtain ⟨k₀, v₀⟩ := hd
    by_cases hk : k = k₀
    · subst hk; simp [setE, lookupD, h]
    · by_cases hk' : k' = k₀ <;> simp [setE, lookupD, hk, hk', ih]

theorem DD.find_set_self (d : DD K V) (k : K) (v : V) :
    (d.set k v).find k = some v := lookupD_setE_self d.entries k v

theorem DD.find_set_ne (d : DD K V) (k k' : K) (v : V) (h : k' ≠ k) :
    (d.set k v).find k' = d.find k' := lookupD_setE_ne d.entries k k' v h

theorem DD.find_getM_self (d : DD K V) (dflt : V) (k : K) :
    (d.getM dflt k).find k = some ((d.find k).getD dflt) := by
  unfold DD.getM
  cases h : d.find k with
  | some v => simp [h]
  | none =>
    show lookupD (d.entries ++ [(k, dflt)]) k = some dflt
    rw [lookupD_append]
    have : lookupD d.entries k = none := h
    simp [this, lookupD]

theorem DD.find_getM_ne (d : DD K V) (dflt : V) (k k' : K) (h : k' ≠ k) :
    (d.getM dflt k).find k' = d.find k' := by
  unfold DD.getM
  cases hk : d.find k with
  | some v => rfl
  | none =>
    show lookupD (d.entries ++ [(k, dflt)]) k' = d.find k'
    rw [lookupD_append]
    cases hl : lookupD d.entries k' with
    | some v => simp [DD.find, hl]
    | none => simp [lookupD, h, DD.find, hl]

theorem DD.find_getM_mono (d : DD K V) (dflt : V) (k k' : K) (v : V)
    (h : d.find k' = some v) : (d.getM dflt k).find k' = some v := by
  by_cases hk : k' = k
  · subst hk; rw [DD.find_getM_self, h]; rfl
  · rw [DD.find_getM_ne d dflt k k' hk]; exact h

theorem DD.getV_getM (d : DD K V) (dflt : V) (k k' : K) :
    (d.getM dflt k).getV dflt k' = d.getV dflt k' := by
  by_cases hk : k' = k
  · subst hk
    rw [DD.getV, DD.find_getM_self]
    cases h : d.find k' <;> simp [DD.getV, h]
  · rw [DD.getV, DD.find_getM_ne d dflt k k' hk]; rfl

theorem DD.find_set_isSome (d : DD K V) (k k' : K) (v : V)
    (h : (d.find k').isSome) : ((d.set k v).find k').isSome := by
  by_cases hk : k' = k
  · subst hk; rw [DD.find_set_self]; rfl
  · rw [DD.find_set_ne d k k' v hk]; exact h

theorem DD.find_getM_isSome (d : DD K V) (dflt : V) (k k' : K)
    (h : (d.find k').isSome) : ((d.getM dflt k).find k').isSome := by
  obtain ⟨v, hv⟩ := Option.isSome_iff_exists.mp h
  rw [DD.find_getM_mono d dflt k k' v hv]; rfl

/-- C2: a terminal `set_reward r` records `last_reward = r`, increments
`trials` by exactly 1, and overwrites `Q[last_state][last_action]` with
exactly `r` (no learning-rate blending, no bootstrapped continuation). -/
theorem set_reward_terminal_spec [DecidableEq S] [DecidableEq A]
    (st : LState S A W) (r : W) :
    (set_reward st r true).last_reward = some r ∧
    (set_reward st r true).trials = st.trials + 1 ∧
    qfind (set_reward st r true).Q st.last_state st.last_action = some r := by
  refine ⟨rfl, rfl, ?_⟩
  show ((((st.Q.getM DD.empty st.last_state).set st.last_state
      ((st.Q.getV DD.empty st.last_state).set st.last_action r)).find st.last_state).bind
      fun d => d.find st.last_action) = some r
  rw [DD.find_set_self]
  simp [DD.find_set_self]

/-- C7: `set_reward` never modifies `last_state`, `last_action` or the
visitation counter; a non-terminal call changes only `last_reward`, and a
terminal call changes only `last_reward`, `trials` and the single table
entry `Q[last_state][last_action]` (every other `(s, a)` entry is
untouched).  In particular `last_state`/`last_action` are not reset to
`None`, so a subsequent `step` still applies an update using the stale
pre-terminal pair. -/
theorem set_reward_frame [DecidableEq S] [DecidableEq A]
    (st : LState S A W) (r : W) (t : Bool) :
    (set_reward st r t).last_state = st.last_state ∧
    (set_reward st r t).last_action = st.last_action ∧
    (set_reward st r t).counter = st.counter ∧
    (t = false → (set_reward st r t).Q = st.Q ∧ (set_reward st r t).trials = st.trials) ∧
    (t = true → ∀ s a, s ≠ st.last_state ∨ a ≠ st.last_action →
      qfind (set_reward st r t).Q s a = qfind st.Q s a) := by
  cases t with
  | false => exact ⟨rfl, rfl, rfl, fun _ => ⟨rfl, rfl⟩, fun h => absurd h (by simp)⟩
  | true =>
    refine ⟨rfl, rfl, rfl, fun h => absurd h (by simp), fun _ s a hne => ?_⟩
    show ((((st.Q.getM DD.empty st.last_state).set st.last_state
        ((st.Q.getV DD.empty st.last_state).set st.last_action r)).find s).bind
        fun d => d.find a) = qfind st.Q s a
    by_cases hs : s = st.last_state
    · subst hs
      have ha : a ≠ st.last_action := hne.resolve_left (by simp)
      rw [DD.find_set_self]
      show ((st.Q.getV DD.empty st.last_state).set st.last_action r).find a =
        qfind st.Q st.last_state a
      rw [DD.find_set_ne _ _ _ _ ha]
      unfold qfind DD.getV
      cases h : st.Q.find st.last_state with
      | some d => simp [h]
      | none => simp [h, DD.empty, DD.find, lookupD]
    · rw [DD.find_set_ne _ _ _ _ hs, DD.find_getM_ne _ _ _ _ hs]
      rfl

/-- Witness for C7 at a concrete learner state: a terminal `set_reward`
leaves the counter and an unrelated table entry unchanged. -/
theorem set_reward_frame_witness :
    (set_reward (initLState ℕ ℕ ℚ) 5 true).counter = (initLState ℕ ℕ ℚ).counter ∧
    qfind (set_reward (initLState ℕ ℕ ℚ) 5 true).Q (some 1) (some 0) =
      qfind (initLState ℕ ℕ ℚ).Q (some 1) (some 0) := by
  refine ⟨(set_reward_frame (initLState ℕ ℕ ℚ) 5 true).2.2.1, ?_⟩
  exact (set_reward_frame (initLState ℕ ℕ ℚ) 5 true).2.2.2.2 rfl (some 1) (some 0)
    (Or.inl (by decide))

/-- Looking up a `(s, a)` entry right after writing the inner table at
`s`: the freshly written inner table is consulted. -/
theorem qfind_set_self [DecidableEq S] [DecidableEq A]
    (X : DD (Option S) (DD (Option A) W)) (s : Option S) (a : Option A)
    (d : DD (Option A) W) : qfind (X.set s d) s a = d.find a := by
  unfold qfind
  rw [DD.find_set_self]
  rfl

/-- The inner table the update rules see at the successor key `some cs`
after the reads of `Q[s]`/`Q[s][a]`, when `s ≠ some cs`: unchanged. -/
theorem csinner_eq_of_ne [DecidableEq S] [DecidableEq A] [Zero W]
    (Q : DD (Option S) (DD (Option A) W)) (s : Option S) (a : Option A) (cs : S)
    (hne : s ≠ some cs) :
    ((Q.getM DD.empty s).set s ((Q.getV DD.empty s).getM 0 a)).getV DD.empty (some cs) =
      Q.getV DD.empty (some cs) := by
  unfold DD.getV
  rw [DD.find_set_ne _ _ _ _ (Ne.symm hne), DD.find_getM_ne _ _ _ _ (Ne.symm hne)]

/-- The bootstrap value `Q[cs][ca]` read by SARSA equals the observable
table value `qval Q (some cs) ca`, for any `s`, `a` (the preliminary reads
of `Q[s]`/`Q[s][a]` insert only default entries). -/
theorem sarsa_bootstrap_eq [DecidableEq S] [DecidableEq A] [Zero W]
    (Q : DD (Option S) (DD (Option A) W)) (s : Option S) (a : Option A) (cs : S)
    (ca : Option A) :
    (((Q.getM DD.empty s).set s ((Q.getV DD.empty s).getM 0 a)).getV DD.empty
        (some cs)).getV 0 ca = qval Q (some cs) ca := by
  by_cases hs : s = some cs
  · have h1 : ((Q.getM DD.empty s).set s ((Q.getV DD.empty s).getM 0 a)).getV DD.empty
        (some cs) = (Q.getV DD.empty s).getM 0 a := by
      rw [← hs]
      unfold DD.getV
      rw [DD.find_set_self]
      rfl
    rw [h1, DD.getV_getM]
    show (Q.getV DD.empty s).getV 0 ca = qval Q (some cs) ca
    rw [hs]
    rfl
  · rw [csinner_eq_of_ne Q s a cs hs]
    rfl

/-- C1 counterexample: on a fresh learner, the TD update with an unvisited
successor state `cs = 1` raises (`max` of an empty values list) instead of
treating the maximum as `0.0`; the claimed result would be
`some` state with `Q[s][a] = 1`. -/
theorem td_update_unvisited_successor_raises :
    update_rule_TD ((9 : ℚ)/10) (fun _ => 1) (some 0) (some 0) (some 1) 1 none
      (initLState ℕ ℕ ℚ) = none := by decide

/-- C1 (amended): for `s ≠ cs`, the TD update sets `Q[s][a]` to
`Q[s][a] + lr * (r + discount_factor * M - Q[s][a])` with
`lr = learning_rate(counter[s][a])` and `M` the maximum utility recorded in
`Q[cs]` — but when `cs` has no recorded actions the update raises
`ValueError` (`max()` of an empty sequence) rather than treating `M` as
`0.0`. -/
theorem td_update_rule_amended [DecidableEq S] [DecidableEq A] [LinearOrderedField W]
    (df : W) (tf : ℕ → W) (st : LState S A W) (s : Option S) (a : Option A)
    (rv : W) (cs : S) (ca : Option A) (hne : s ≠ some cs) :
    (innerValues st.Q cs = [] →
      update_rule_TD df tf s a (some rv) cs ca st = none) ∧
    ∀ m, pyMax (innerValues st.Q cs) = some m →
      ∃ st', update_rule_TD df tf s a (some rv) cs ca st = some st' ∧
        qfind st'.Q s a = some (qval st.Q s a +
          learning_rate tf (cnt st.counter s a) * (rv + df * m - qval st.Q s a)) := by
  have hcs := csinner_eq_of_ne st.Q s a cs hne
  constructor
  · intro hempty
    unfold update_rule_TD
    simp only [hcs]
    have : (st.Q.getV DD.empty (some cs)).values = [] := hempty
    rw [this]
    rfl
  · intro m hm
    unfold update_rule_TD
    simp only [hcs]
    have hm' : pyMax (st.Q.getV DD.empty (some cs)).values = some m := hm
    rw [hm']
    refine ⟨_, rfl, ?_⟩
    rw [qfind_set_self, DD.find_set_self]
    rfl

/-- Witness for C1 (amended) at a concrete input: `Q = {1: {0: 2}}`,
`s = 0`, `a = 0`, `r = 1`, `cs = 1`, `discount = 1/2`, `lr = 1`; the
update succeeds and writes `Q[0][0] = 0 + 1 * (1 + (1/2) * 2 - 0) = 2`. -/
theorem td_update_rule_amended_witness :
    ∃ st', update_rule_TD ((1 : ℚ)/2) (fun _ => 1) (some 0) (some 0) (some 1) 1 none
        (⟨⟨[(some 1, ⟨[(some 0, 2)]⟩)]⟩, none, none, DD.empty, 0, none⟩ : LState ℕ ℕ ℚ) =
        some st' ∧
      qfind st'.Q (some 0) (some 0) = some 2 := by
  obtain ⟨st', h1, h2⟩ :=
    (td_update_rule_amended ((1 : ℚ)/2) (fun _ => 1)
      (⟨⟨[(some 1, ⟨[(some 0, 2)]⟩)]⟩, none, none, DD.empty, 0, none⟩ : LState ℕ ℕ ℚ)
      (some 0) (some 0) 1 1 none (by decide)).2 2 (by decide)
  refine ⟨st', h1, ?_⟩
  rw [h2]
  norm_num [qval, cnt, learning_rate, DD.getV, DD.find, DD.cget, DD.empty, lookupD]

/-- C3: the SARSA update always succeeds for a numeric reward and sets
`Q[s][a]` to `Q[s][a] + lr * (r + discount_factor * Q[cs][ca] - Q[s][a])`,
where `lr = learning_rate(counter[s][a]) = min(1, temperature_function(counter[s][a]))`
never exceeds 1. -/
theorem sarsa_update_rule_spec [DecidableEq S] [DecidableEq A] [LinearOrderedField W]
    (df : W) (tf : ℕ → W) (st : LState S A W) (s : Option S) (a : Option A)
    (rv : W) (cs : S) (ca : Option A) :
    learning_rate tf (cnt st.counter s a) ≤ 1 ∧
    ∃ st', update_rule_SARSA df tf s a (some rv) cs ca st = some st' ∧
      qfind st'.Q s a = some (qval st.Q s a +
        learning_rate tf (cnt st.counter s a) *
          (rv + df * qval st.Q (some cs) ca - qval st.Q s a)) := by
  refine ⟨min_le_left 1 _, ?_⟩
  have hb := sarsa_bootstrap_eq st.Q s a cs ca
  unfold update_rule_SARSA
  simp only [hb]
  refine ⟨_, rfl, ?_⟩
  rw [qfind_set_self, DD.find_set_self]
  rfl

/-- C4: for every `initial_temperature`, `alpha` and `n`, the schedule is
total: below the overflow threshold `math.exp` succeeds and the schedule
returns `initial_temperature / exp(n * alpha)`; above it `math.exp` raises
`OverflowError`, which is caught locally and turned into the floor value
`0.01` — the failure is never surfaced to the caller. -/
theorem make_exponential_temperature_spec (initial alpha : ℝ) (n : ℕ) :
    (¬ (n : ℝ) * alpha > expOverflowBound ∧
      pyExp ((n : ℝ) * alpha) = some (Real.exp ((n : ℝ) * alpha)) ∧
      make_exponential_temperature initial alpha n =
        initial / Real.exp ((n : ℝ) * alpha)) ∨
    ((n : ℝ) * alpha > expOverflowBound ∧ pyExp ((n : ℝ) * alpha) = none ∧
      make_exponential_temperature initial alpha n = 0.01) := by
  by_cases h : (n : ℝ) * alpha > expOverflowBound
  · right
    refine ⟨h, ?_, ?_⟩ <;> simp [pyExp, make_exponential_temperature, h]
  · left
    refine ⟨h, ?_, ?_⟩ <;> simp [pyExp, make_exponential_temperature, h]

/-- C5 counterexample: with `initial_temperature = 1` and `alpha = -1` the
schedule is not decreasing: `temperature(1) = e > 1 = temperature(0)`
(it also leaves the claimed codomain `(0, initial]`). -/
theorem exp_temperature_not_monotone :
    ¬ make_exponential_temperature 1 (-1) 1 ≤ make_exponential_temperature 1 (-1) 0 := by
  have h0 : make_exponential_temperature 1 (-1) 0 = 1 := by
    simp only [make_exponential_temperature, pyExp]
    rw [if_neg (by norm_num [expOverflowBound])]
    norm_num [Real.exp_zero]
  have h1 : make_exponential_temperature 1 (-1) 1 = Real.exp 1 := by
    simp only [make_exponential_temperature, pyExp]
    rw [if_neg (by norm_num [expOverflowBound])]
    norm_num [Real.exp_neg]
  rw [h0, h1]
  have := Real.add_one_le_exp (1 : ℝ)
  linarith

/-- C5 (amended): for `initial_temperature > 0`, `alpha ≥ 0` and indices
whose exponent argument stays at or below the overflow threshold, the
exponential schedule is antitone (`n1 < n2` gives
`temperature(n2) ≤ temperature(n1)`) and its values lie in
`(0, initial_temperature]`.  For `alpha < 0` the schedule increases and
leaves that interval, and across the `0.01` overflow floor monotonicity
can also fail. -/
theorem exp_temperature_monotone_amended (initial alpha : ℝ) (hinit : 0 < initial)
    (halpha : 0 ≤ alpha) (n1 n2 : ℕ) (hlt : n1 < n2)
    (hbound : (n2 : ℝ) * alpha ≤ expOverflowBound) :
    make_exponential_temperature initial alpha n2 ≤
      make_exponential_temperature initial alpha n1 ∧
    (0 < make_exponential_temperature initial alpha n1 ∧
      make_exponential_temperature initial alpha n1 ≤ initial) ∧
    (0 < make_exponential_temperature initial alpha n2 ∧
      make_exponential_temperature initial alpha n2 ≤ initial) := by
  have hmono : (n1 : ℝ) * alpha ≤ (n2 : ℝ) * alpha :=
    mul_le_mul_of_nonneg_right (by exact_mod_cast hlt.le) halpha
  have h1b : (n1 : ℝ) * alpha ≤ expOverflowBound := le_trans hmono hbound
  have e1 : make_exponential_temperature initial alpha n1 =
      initial / Real.exp ((n1 : ℝ) * alpha) := by
    simp [make_exponential_temperature, pyExp, not_lt.mpr h1b]
  have e2 : make_exponential_temperature initial alpha n2 =
      initial / Real.exp ((n2 : ℝ) * alpha) := by
    simp [make_exponential_temperature, pyExp, not_lt.mpr hbound]
  have key : ∀ m : ℕ, 0 < initial / Real.exp ((m : ℝ) * alpha) ∧
      initial / Real.exp ((m : ℝ) * alpha) ≤ initial := by
    intro m
    have hx : (0 : ℝ) ≤ (m : ℝ) * alpha := mul_nonneg (Nat.cast_nonneg m) halpha
    have hexp1 : (1 : ℝ) ≤ Real.exp ((m : ℝ) * alpha) := by
      calc (1 : ℝ) = Real.exp 0 := Real.exp_zero.symm
        _ ≤ Real.exp ((m : ℝ) * alpha) := Real.exp_le_exp.mpr hx
    exact ⟨div_pos hinit (Real.exp_pos _), div_le_self hinit.le hexp1⟩
  refine ⟨?_, by rw [e1]; exact key n1, by rw [e2]; exact key n2⟩
  rw [e1, e2]
  exact div_le_div_of_nonneg_left hinit.le (Real.exp_pos _) (Real.exp_le_exp.mpr hmono)

/-- Witness for C5 (amended) at `initial = 1`, `alpha = 1`, `n1 = 0`,
`n2 = 1`. -/
theorem exp_temperature_monotone_amended_witness :
    make_exponential_temperature 1 1 1 ≤ make_exponential_temperature 1 1 0 ∧
    (0 < make_exponential_temperature 1 1 0 ∧
      make_exponential_temperature 1 1 0 ≤ 1) ∧
    (0 < make_exponential_temperature 1 1 1 ∧
      make_exponential_temperature 1 1 1 ≤ 1) :=
  exp_temperature_monotone_amended 1 1 one_pos zero_le_one 0 1 zero_lt_one
    (by norm_num [expOverflowBound])

theorem readAll_fst [DecidableEq A] (dflt : W) :
    ∀ (l : List A) (d : DD (Option A) W),
      (readAll d dflt l).1 = l.map fun x => d.getV dflt (some x) := by
  intro l
  induction l with
  | nil => intro d; rfl
  | cons x xs ih =>
    intro d
    show d.getV dflt (some x) :: (readAll (d.getM dflt (some x)) dflt xs).1 = _
    rw [ih]
    simp [DD.getV_getM]

theorem readAll_snd_getV [DecidableEq A] (dflt : W) :
    ∀ (l : List A) (d : DD (Option A) W) (k : Option A),
      ((readAll d dflt l).2).getV dflt k = d.getV dflt k := by
  intro l
  induction l with
  | nil => intro d k; rfl
  | cons x xs ih => intro d k; rw [show (readAll d dflt (x :: xs)).2 =
      (readAll (d.getM dflt (some x)) dflt xs).2 from rfl, ih, DD.getV_getM]

theorem readAll_snd_find_mono [DecidableEq A] (dflt : W) :
    ∀ (l : List A) (d : DD (Option A) W) (k : Option A),
      (d.find k).isSome → (((readAll d dflt l).2).find k).isSome := by
  intro l
  induction l with
  | nil => intro d k h; exact h
  | cons x xs ih =>
    intro d k h
    exact ih (d.getM dflt (some x)) k (DD.find_getM_isSome d dflt (some x) k h)

theorem readAll_snd_find_mem [DecidableEq A] (dflt : W) :
    ∀ (l : List A) (d : DD (Option A) W) (x : A),
      x ∈ l → (((readAll d dflt l).2).find (some x)).isSome := by
  intro l
  induction l with
  | nil => intro d x h; exact absurd h (List.not_mem_nil x)
  | cons y ys ih =>
    intro d x h
    rcases List.mem_cons.mp h with h | h
    · subst h
      refine readAll_snd_find_mono dflt ys (d.getM dflt (some x)) (some x) ?_
      rw [DD.find_getM_self]
      rfl
    · exact ih (d.getM dflt (some y)) x h

theorem argmax_eq_none [LinearOrder W] (f : A → W) :
    ∀ l : List A, argmax f l = none ↔ l = [] := by
  intro l
  cases l with
  | nil => simp [argmax]
  | cons x xs =>
    simp only [argmax]
    constructor
    · intro h
      cases hxs : argmax f xs with
      | none => rw [hxs] at h; exact absurd h (by simp)
      | some b =>
        rw [hxs] at h
        by_cases hgt : f b > f x <;> simp [hgt] at h
    · intro h; exact absurd h (by simp)

theorem argmax_mem [LinearOrder W] (f : A → W) :
    ∀ (l : List A) (r : A), argmax f l = some r → r ∈ l := by
  intro l
  induction l with
  | nil => intro r h; simp [argmax] at h
  | cons x xs ih =>
    intro r h
    simp only [argmax] at h
    cases hxs : argmax f xs with
    | none => rw [hxs] at h; simp at h; simp [h]
    | some b =>
      rw [hxs] at h
      by_cases hgt : f b > f x
      · have hbr : b = r := by simpa [hgt] using h
        subst hbr
        exact List.mem_cons_of_mem x (ih b hxs)
      · have hxr : x = r := by simpa [hgt] using h
        simp [← hxr]

theorem argmax_congr [LinearOrder W] (f g : A → W) :
    ∀ l : List A, (∀ x ∈ l, f x = g x) → argmax f l = argmax g l := by
  intro l
  induction l with
  | nil => intro _; rfl
  | cons x xs ih =>
    intro h
    have hx : f x = g x := h x (List.mem_cons_self x xs)
    have htl : argmax f xs = argmax g xs :=
      ih fun y hy => h y (List.mem_cons_of_mem x hy)
    simp only [argmax, htl]
    cases hb : argmax g xs with
    | none => rfl
    | some b =>
      have hbx : f b = g b := h b (List.mem_cons_of_mem x (argmax_mem g xs b hb))
      show (if f b > f x then some b else some x) =
        if g b > g x then some b else some x
      rw [hbx, hx]

/-- `argmax` returns the first element attaining the maximum: every
element is `≤` the result and every element strictly before the result is
`<` it. -/
theorem argmax_first_max [LinearOrder W] (f : A → W) :
    ∀ l : List A, l ≠ [] →
      ∃ r, argmax f l = some r ∧ ∃ pre post, l = pre ++ r :: post ∧
        (∀ x ∈ l, f x ≤ f r) ∧ ∀ x ∈ pre, f x < f r := by
  intro l
  induction l with
  | nil => intro h; exact absurd rfl h
  | cons x xs ih =>
    intro _
    cases hxs : argmax f xs with
    | none =>
      have hnil : xs = [] := (argmax_eq_none f xs).mp hxs
      subst hnil
      exact ⟨x, rfl, [], [], rfl, by simp, by simp⟩
    | some b =>
      have hne : xs ≠ [] := by
        intro hn
        subst hn
        simp [argmax] at hxs
      obtain ⟨r, hr, pre, post, hsplit, hmax, hpre⟩ := ih hne
      have hbr : b = r := by rw [hr] at hxs; exact (Option.some.inj hxs).symm
      subst hbr
      by_cases hgt : f b > f x
      · refine ⟨b, ?_, x :: pre, post, by rw [hsplit, List.cons_append], ?_, ?_⟩
        · show (match argmax f xs with
            | none => some x
            | some b => if f b > f x then some b else some x) = some b
          rw [hxs]
          show (if f b > f x then some b else some x) = some b
          rw [if_pos hgt]
        · intro y hy
          rcases List.mem_cons.mp hy with hy | hy
          · subst hy; exact hgt.le
          · exact hmax y hy
        · intro y hy
          rcases List.mem_cons.mp hy with hy | hy
          · subst hy; exact hgt
          · exact hpre y hy
      · refine ⟨x, ?_, [], xs, rfl, ?_, by simp⟩
        · show (match argmax f xs with
            | none => some x
            | some b => if f b > f x then some b else some x) = some x
          rw [hxs]
          show (if f b > f x then some b else some x) = some x
          rw [if_neg hgt]
        · intro y hy
          rcases List.mem_cons.mp hy with hy | hy
          · subst hy; exact le_refl _
          · exact (hmax y hy).trans (not_lt.mp hgt)

theorem dlookupLast_pair_map [DecidableEq A] (g : A → W) :
    ∀ (l : List A) (a : A),
      dlookupLast (l.map fun x => (x, g x)) a = if a ∈ l then some (g a) else none := by
  intro l
  induction l with
  | nil => intro a; simp [dlookupLast]
  | cons x xs ih =>
    intro a
    show (match dlookupLast (xs.map fun x => (x, g x)) a with
      | some w => some w
      | none => if a = x then some (g x) else none) = _
    rw [ih]
    by_cases hmem : a ∈ xs
    · simp [hmem]
    · by_cases hax : a = x
      · subst hax; simp [hmem]
      · simp [hmem, hax]

theorem zip_self_map {α β : Type} (g : α → β) :
    ∀ l : List α, l.zip (l.map g) = l.map fun a => (a, g a) := by
  intro l
  induction l with
  | nil => rfl
  | cons x xs ih => simp [ih]

/-- C6: on a non-empty action list the optimistic-count strategy returns
an action of maximum effective utility — every action with visitation
count strictly below `min_n` counts as `optimistic_reward` regardless of
its table value, every other action keeps its table utility — with ties
broken by first-encountered order (no earlier action attains the
maximum). -/
theorem at_least_n_times_spec [DecidableEq A] [LinearOrder W] [Zero W]
    (optimistic_reward : W) (min_n : ℕ) (actions : List A)
    (utilities : DD (Option A) W) (temp : W) (action_counter : DD (Option A) ℕ)
    (h : actions ≠ []) :
    ∃ r d', at_least_n_times_exploration optimistic_reward min_n actions utilities
        temp action_counter = some (r, d') ∧
      ∃ pre post, actions = pre ++ r :: post ∧
        (∀ x ∈ actions,
          effectiveUtility optimistic_reward min_n utilities action_counter x ≤
          effectiveUtility optimistic_reward min_n utilities action_counter r) ∧
        ∀ x ∈ pre,
          effectiveUtility optimistic_reward min_n utilities action_counter x <
          effectiveUtility optimistic_reward min_n utilities action_counter r := by
  have h1 : actions.zip ((actions.zip (readAll utilities 0 actions).1).map fun p =>
        if action_counter.cget (some p.1) < min_n then optimistic_reward else p.2) =
      actions.map fun a =>
        (a, effectiveUtility optimistic_reward min_n utilities action_counter a) := by
    rw [readAll_fst, zip_self_map, List.map_map, zip_self_map]
    rfl
  have hcong : argmax (fun x => (dlookupLast (actions.zip
        ((actions.zip (readAll utilities 0 actions).1).map fun p =>
          if action_counter.cget (some p.1) < min_n then optimistic_reward else p.2))
        x).getD 0) actions =
      argmax (effectiveUtility optimistic_reward min_n utilities action_counter)
        actions := by
    apply argmax_congr
    intro x hx
    rw [h1, dlookupLast_pair_map]
    simp [hx]
  obtain ⟨r, hr, pre, post, hsplit, hmax, hpre⟩ :=
    argmax_first_max (effectiveUtility optimistic_reward min_n utilities action_counter)
      actions h
  unfold at_least_n_times_exploration
  simp only [hcong, hr]
  exact ⟨r, (readAll utilities 0 actions).2, rfl, pre, post, hsplit, hmax, hpre⟩

/-- Witness for C6: actions `[0, 1]` with `min_n = 1`; action 0 is
unvisited so its effective utility is the optimistic reward 10, action 1
was visited 3 times and keeps table utility 5; the strategy picks 0. -/
theorem at_least_n_times_spec_witness :
    ∃ r d', at_least_n_times_exploration (10 : ℚ) 1 [0, 1]
        (⟨[(some 1, 5)]⟩ : DD (Option ℕ) ℚ) 1 (⟨[(some 1, 3)]⟩ : DD (Option ℕ) ℕ) =
        some (r, d') ∧
      ∃ pre post, ([0, 1] : List ℕ) = pre ++ r :: post ∧
        (∀ x ∈ ([0, 1] : List ℕ),
          effectiveUtility (10 : ℚ) 1 ⟨[(some 1, 5)]⟩ ⟨[(some 1, 3)]⟩ x ≤
          effectiveUtility (10 : ℚ) 1 ⟨[(some 1, 5)]⟩ ⟨[(some 1, 3)]⟩ r) ∧
        ∀ x ∈ pre,
          effectiveUtility (10 : ℚ) 1 ⟨[(some 1, 5)]⟩ ⟨[(some 1, 3)]⟩ x <
          effectiveUtility (10 : ℚ) 1 ⟨[(some 1, 5)]⟩ ⟨[(some 1, 3)]⟩ r :=
  at_least_n_times_spec 10 1 [0, 1] ⟨[(some 1, 5)]⟩ 1 ⟨[(some 1, 3)]⟩ (by decide)

theorem cdfLoop_total (r : ℝ) :
    ∀ (rest : List ℝ) (tot : ℝ) (i : ℕ), r < tot + rest.sum →
      ∃ j, cdfLoop r tot rest i = some j ∧ j ≤ i + rest.length := by
  intro rest
  induction rest with
  | nil =>
    intro tot i h
    have hrt : r < tot := by simpa using h
    exact ⟨i, by rw [cdfLoop, if_pos hrt], by simp⟩
  | cons p ps ih =>
    intro tot i h
    by_cases hrt : r < tot
    · exact ⟨i, by rw [cdfLoop, if_pos hrt], by simp⟩
    · have h' : r < (tot + p) + ps.sum := by
        rw [add_assoc]
        simpa using h
      obtain ⟨j, hj, hjle⟩ := ih (tot + p) (i + 1) h'
      refine ⟨j, ?_, by simpa [Nat.add_assoc, Nat.add_comm 1 ps.length] using hjle⟩
      rw [cdfLoop, if_neg hrt]
      exact hj

theorem pyMax_of_ne_nil {X : Type v} [LinearOrder X] (l : List X) (h : l ≠ []) :
    ∃ m, pyMax l = some m := by
  cases l with
  | nil => exact absurd rfl h
  | cons x xs => exact ⟨xs.foldl max x, rfl⟩

theorem pyMin_of_ne_nil {X : Type v} [LinearOrder X] (l : List X) (h : l ≠ []) :
    ∃ m, pyMin l = some m := by
  cases l with
  | nil => exact absurd rfl h
  | cons x xs => exact ⟨xs.foldl min x, rfl⟩

theorem sum_map_div (S : ℝ) : ∀ l : List ℝ, (l.map fun u => u / S).sum = l.sum / S := by
  intro l
  induction l with
  | nil => simp
  | cons x xs ih => simp [ih, add_div]

/-- C9: for a non-empty action list and a uniform draw `r ∈ [0, 1)`,
`boltzmann_exploration` always succeeds and returns a member of the
supplied action list — in the all-equal-utilities degenerate case via the
uniform `random.choice` fallback, otherwise via cumulative-distribution
inversion over the softmax probabilities with the temperature floored at
0.01. -/
theorem boltzmann_exploration_safe [DecidableEq A] (choiceIdx : ℕ) (r : ℝ)
    (actions : List A) (utilities : DD (Option A) ℝ) (temperature : ℝ)
    (action_counter : DD (Option A) ℕ)
    (h : actions ≠ []) (h0 : 0 ≤ r) (h1 : r < 1) :
    ∃ act d', boltzmann_exploration choiceIdx r actions utilities temperature
        action_counter = some (act, d') ∧ act ∈ actions := by
  have hpos : 0 < actions.length := List.length_pos.mpr h
  have hlenus : ((readAll utilities 0 actions).1).length = actions.length := by
    rw [readAll_fst]
    exact List.length_map _ _
  have husne : (readAll utilities 0 actions).1 ≠ [] := by
    intro hn
    rw [hn] at hlenus
    exact absurd hlenus.symm (Nat.pos_iff_ne_zero.mp hpos)
  obtain ⟨mx, hmx⟩ := pyMax_of_ne_nil _ husne
  obtain ⟨mn, hmn⟩ := pyMin_of_ne_nil _ husne
  simp only [boltzmann_exploration]
  rw [hmx, hmn]
  dsimp only
  by_cases heq : mx = mn
  · rw [if_pos heq]
    have hmod : choiceIdx % actions.length < actions.length := Nat.mod_lt _ hpos
    rw [List.get?_eq_get hmod]
    exact ⟨_, _, rfl, List.get_mem actions _ hmod⟩
  · rw [if_neg heq]
    set us := (readAll utilities 0 actions).1 with hus
    set temp := max temperature 0.01 with htemp
    set es := us.map fun u => Real.exp (((u - mn) / (mx - mn)) / temp) with hes
    have heslen : es.length = actions.length := by
      rw [hes, List.length_map, hlenus]
    have hesne : es ≠ [] := by
      intro hn
      rw [hn] at heslen
      exact absurd heslen.symm (Nat.pos_iff_ne_zero.mp hpos)
    have hespos : 0 < es.sum := by
      refine List.sum_pos es ?_ hesne
      intro x hx
      rw [hes] at hx
      obtain ⟨u, _, rfl⟩ := List.mem_map.mp hx
      exact Real.exp_pos _
    set probs := es.map fun u => u / es.sum with hprobs
    have hproblen : probs.length = actions.length := by
      rw [hprobs, List.length_map, heslen]
    have hprobsum : probs.sum = 1 := by
      rw [hprobs, sum_map_div]
      exact div_self hespos.ne'
    have hprobne : probs ≠ [] := by
      intro hn
      rw [hn] at hproblen
      exact absurd hproblen.symm (Nat.pos_iff_ne_zero.mp hpos)
    obtain ⟨p, ps, hp⟩ := List.exists_cons_of_ne_nil hprobne
    rw [hp]
    dsimp only
    have hr1 : r < p + ps.sum := by
      have : p + ps.sum = probs.sum := by rw [hp, List.sum_cons]
      rw [this, hprobsum]
      exact h1
    obtain ⟨j, hj, hjle⟩ := cdfLoop_total r ps p 0 hr1
    rw [hj]
    dsimp only
    have hjlt : j < actions.length := by
      have hps : ps.length + 1 = actions.length := by
        rw [← hproblen, hp, List.length_cons]
      omega
    rw [List.get?_eq_get hjlt]
    exact ⟨_, _, rfl, List.get_mem actions _ hjlt⟩

/-- Witness for C9: two actions with empty (all-zero) utilities, draw
`r = 0`, choice index 0. -/
theorem boltzmann_exploration_safe_witness :
    ∃ act d', boltzmann_exploration (A := ℕ) 0 0 [0, 1] DD.empty 1 DD.empty =
        some (act, d') ∧ act ∈ ([0, 1] : List ℕ) :=
  boltzmann_exploration_safe 0 0 [0, 1] DD.empty 1 DD.empty (by decide) le_rfl
    zero_lt_one

/-- C8 counterexample: a TD learner that has a pending previous pair
`(0, 0)` steps into state 1 with an empty action set; the pending TD
update hits the unvisited successor state 1 and raises (`max` of an empty
sequence), so `step` propagates the exception (`none`) instead of
returning `None` as a valid action. -/
theorem step_empty_actions_raises :
    step (at_least_n_times_exploration (1 : ℚ) 1)
      (update_rule_TD ((1 : ℚ)/2) (fun _ => 1))
      (fun s => if s = 0 then [0] else []) id (fun _ => 1)
      (⟨⟨[(some 0, ⟨[(some 0, 0)]⟩)]⟩, some 0, some 0,
        ⟨[(some 0, ⟨[(some 0, 1)]⟩)]⟩, 0, some 0⟩ : LState ℕ ℕ ℚ) 1 = none := by
  decide

/-- C8 (amended): when `actions(update_state(percept))` is empty, `step`
makes no call to the exploration function (its result does not depend on
it), and — provided the pending update-rule application does not itself
raise — sets `current_action = None`, stores `None` as `last_action` and
returns `None`.  With no previous state (`last_state = None`) no update
is pending and the step always succeeds with action `None`; but a pending
update may raise (e.g. the TD rule on an unvisited successor), in which
case `step` propagates the exception instead of returning `None`. -/
theorem step_empty_actions_amended [DecidableEq S] [DecidableEq A]
    (explore explore' : ExplF A W) (update : UpdF S A W) (actionsOf : S → List A)
    (ustate : P → S) (tf : ℕ → W) (st : LState S A W) (percept : P)
    (h : actionsOf (ustate percept) = []) :
    step explore update actionsOf ustate tf st percept =
      step explore' update actionsOf ustate tf st percept ∧
    (st.last_state = none →
      step explore update actionsOf ustate tf st percept =
        some (none, { st with
          last_state := some (ustate percept), last_action := none })) ∧
    ∀ c st', step explore update actionsOf ustate tf st percept = some (c, st') →
      c = none ∧ st'.last_action = none := by
  refine ⟨?_, ?_, ?_⟩
  · simp only [step, h]
  · intro h2
    simp only [step, h, h2]
  · intro c st' hstep
    simp only [step, h] at hstep
    cases hls : st.last_state with
    | none =>
      rw [hls] at hstep
      dsimp only at hstep
      obtain ⟨hc, hst'⟩ := Prod.mk.injEq .. ▸ Option.some.inj hstep
      exact ⟨hc.symm, by rw [← hst']⟩
    | some s₀ =>
      rw [hls] at hstep
      dsimp only at hstep
      split at hstep
      · exact absurd hstep (by simp)
      · obtain ⟨hc, hst'⟩ := Prod.mk.injEq .. ▸ Option.some.inj hstep
        exact ⟨hc.symm, by rw [← hst']⟩

/-- Witness for C8 (amended) on a fresh learner with an empty action set:
the step ignores the exploration function and returns `None`. -/
theorem step_empty_actions_amended_witness :
    step (at_least_n_times_exploration (1 : ℚ) 1)
        (update_rule_TD ((1 : ℚ)/2) (fun _ => 1)) (fun _ => ([] : List ℕ)) id
        (fun _ => 1) (initLState ℕ ℕ ℚ) 0 =
      step (at_least_n_times_exploration (2 : ℚ) 3)
        (update_rule_TD ((1 : ℚ)/2) (fun _ => 1)) (fun _ => ([] : List ℕ)) id
        (fun _ => 1) (initLState ℕ ℕ ℚ) 0 ∧
    step (at_least_n_times_exploration (1 : ℚ) 1)
        (update_rule_TD ((1 : ℚ)/2) (fun _ => 1)) (fun _ => ([] : List ℕ)) id
        (fun _ => 1) (initLState ℕ ℕ ℚ) 0 =
      some (none, { initLState ℕ ℕ ℚ with
        last_state := some 0, last_action := none }) :=
  ⟨(step_empty_actions_amended (at_least_n_times_exploration 1 1)
      (at_least_n_times_exploration 2 3) (update_rule_TD (1/2) (fun _ => 1))
      (fun _ => []) id (fun _ => 1) (initLState ℕ ℕ ℚ) 0 rfl).1,
   (step_empty_actions_amended (at_least_n_times_exploration 1 1)
      (at_least_n_times_exploration 2 3) (update_rule_TD (1/2) (fun _ => 1))
      (fun _ => []) id (fun _ => 1) (initLState ℕ ℕ ℚ) 0 rfl).2.1 rfl⟩

theorem hasEntry_outer_getM [DecidableEq S] [DecidableEq A]
    (Q : DD (Option S) (DD (Option A) W)) (s k : Option S) (k' : Option A)
    (h : hasEntry Q k k' = true) : hasEntry (Q.getM DD.empty s) k k' = true := by
  unfold hasEntry qfind at h ⊢
  cases hf : Q.find k with
  | none => rw [hf] at h; exact absurd h (by simp)
  | some d =>
    rw [hf] at h
    rw [DD.find_getM_mono Q DD.empty s k d hf]
    exact h

theorem hasEntry_outer_set [DecidableEq S] [DecidableEq A]
    (Q : DD (Option S) (DD (Option A) W)) (s : Option S) (d' : DD (Option A) W)
    (hgrow : ∀ j, ((Q.getV DD.empty s).find j).isSome = true →
      (d'.find j).isSome = true)
    (k : Option S) (k' : Option A) (h : hasEntry Q k k' = true) :
    hasEntry (Q.set s d') k k' = true := by
  unfold hasEntry qfind at h ⊢
  by_cases hk : k = s
  · subst hk
    rw [DD.find_set_self]
    cases hf : Q.find k with
    | none => rw [hf] at h; exact absurd h (by simp)
    | some d =>
      rw [hf] at h
      refine hgrow k' ?_
      unfold DD.getV
      rw [hf]
      exact h
  · rw [DD.find_set_ne _ _ _ _ hk]
    exact h

theorem update_preserves_TD [DecidableEq S] [DecidableEq A] [LinearOrderedField W]
    (df : W) (tf : ℕ → W) :
    updatePreserves (update_rule_TD (S := S) (A := A) df tf) := by
  intro s a r cs ca st st' hupd k k' hk
  simp only [update_rule_TD] at hupd
  cases r with
  | none => split at hupd <;> exact absurd hupd (by simp)
  | some rv =>
    split at hupd
    · exact absurd hupd (by simp)
    · have hrec := Option.some.inj hupd
      subst hrec
      refine hasEntry_outer_set _ _ _ ?_ _ _
        (hasEntry_outer_getM _ _ _ _ (hasEntry_outer_getM _ _ _ _
          (hasEntry_outer_set _ _ _ ?_ _ _ (hasEntry_outer_getM _ _ _ _ hk))))
      · intro j hj
        rw [DD.getV_getM] at hj
        exact DD.find_set_isSome _ _ _ _ hj
      · intro j hj
        rw [DD.getV_getM] at hj
        exact DD.find_getM_isSome _ _ _ _ hj

theorem update_preserves_SARSA [DecidableEq S] [DecidableEq A] [LinearOrderedField W]
    (df : W) (tf : ℕ → W) :
    updatePreserves (update_rule_SARSA (S := S) (A := A) df tf) := by
  intro s a r cs ca st st' hupd k k' hk
  unfold update_rule_SARSA at hupd
  split at hupd
  · exact absurd hupd (by simp)
  · have hrec := Option.some.inj hupd
    subst hrec
    refine hasEntry_outer_set _ _ _ ?_ _ _
      (hasEntry_outer_getM _ _ _ _ (hasEntry_outer_set _ _ _ ?_ _ _
        (hasEntry_outer_getM _ _ _ _ (hasEntry_outer_set _ _ _ ?_ _ _
          (hasEntry_outer_getM _ _ _ _ hk)))))
    · intro j hj
      rw [DD.getV_getM] at hj
      exact DD.find_set_isSome _ _ _ _ hj
    · intro j hj
      rw [DD.getV_getM] at hj
      exact DD.find_getM_isSome _ _ _ _ hj
    · intro j hj
      rw [DD.getV_getM] at hj
      exact DD.find_getM_isSome _ _ _ _ hj

theorem at_least_result_table [DecidableEq A] [LinearOrder W] [Zero W]
    (opt : W) (min_n : ℕ) (actions : List A) (utilities : DD (Option A) W)
    (temp : W) (counter : DD (Option A) ℕ) (act : A) (d' : DD (Option A) W)
    (h : at_least_n_times_exploration opt min_n actions utilities temp counter =
      some (act, d')) :
    d' = (readAll utilities 0 actions).2 := by
  simp only [at_least_n_times_exploration] at h
  split at h
  · exact absurd h (by simp)
  · exact (congrArg Prod.snd (Option.some.inj h)).symm

theorem boltzmann_result_table [DecidableEq A] (choiceIdx : ℕ) (r : ℝ)
    (actions : List A) (utilities : DD (Option A) ℝ) (temperature : ℝ)
    (counter : DD (Option A) ℕ) (act : A) (d' : DD (Option A) ℝ)
    (h : boltzmann_exploration choiceIdx r actions utilities temperature counter =
      some (act, d')) :
    d' = (readAll utilities 0 actions).2 := by
  simp only [boltzmann_exploration] at h
  repeat' split at h
  all_goals try exact (congrArg Prod.snd (Option.some.inj h)).symm
  all_goals simp at h

/-- Core of C10: if the exploration function returns the table produced
by the `[utilities[x] for x in actions]` reads, and the update rule never
deletes entries, then after a successful `step` the `Q[state]` table has
an explicit entry for every candidate action. -/
theorem step_explore_entries [DecidableEq S] [DecidableEq A] [Zero W]
    (explore : ExplF A W) (update : UpdF S A W)
    (hexp : ∀ (actions : List A) (utilities : DD (Option A) W) (temp : W)
      (counter : DD (Option A) ℕ) (act : A) (d' : DD (Option A) W),
      explore actions utilities temp counter = some (act, d') →
      d' = (readAll utilities 0 actions).2)
    (hupd : updatePreserves update)
    (actionsOf : S → List A) (ustate : P → S) (tf : ℕ → W) (st : LState S A W)
    (percept : P) (c : Option A) (st' : LState S A W)
    (hstep : step explore update actionsOf ustate tf st percept = some (c, st'))
    (x : A) (hx : x ∈ actionsOf (ustate percept)) :
    hasEntry st'.Q (some (ustate percept)) (some x) = true := by
  simp only [step] at hstep
  cases hact : actionsOf (ustate percept) with
  | nil => rw [hact] at hx; exact absurd hx (List.not_mem_nil x)
  | cons a₀ rest =>
    rw [hact] at hstep hx
    dsimp only at hstep
    cases hexpl : explore (a₀ :: rest) (st.Q.getV DD.empty (some (ustate percept)))
        (tf st.trials) (st.counter.getV DD.empty (some (ustate percept))) with
    | none => rw [hexpl] at hstep; exact absurd hstep (by simp)
    | some p =>
      obtain ⟨act, qinner'⟩ := p
      rw [hexpl] at hstep
      dsimp only at hstep
      have hq' : qinner' = (readAll (st.Q.getV DD.empty (some (ustate percept))) 0
          (a₀ :: rest)).2 := hexp _ _ _ _ _ _ hexpl
      have hst1 : hasEntry ((st.Q.getM DD.empty (some (ustate percept))).set
          (some (ustate percept)) qinner') (some (ustate percept)) (some x) = true := by
        unfold hasEntry qfind
        rw [DD.find_set_self]
        show (qinner'.find (some x)).isSome = true
        rw [hq']
        exact readAll_snd_find_mem 0 (a₀ :: rest) _ x hx
      cases hls : st.last_state with
      | none =>
        rw [hls] at hstep
        dsimp only at hstep
        obtain ⟨hc, hst'⟩ := Prod.mk.injEq .. ▸ Option.some.inj hstep
        rw [← hst']
        exact hst1
      | some s₀ =>
        rw [hls] at hstep
        dsimp only at hstep
        split at hstep
        · exact absurd hstep (by simp)
        · rename_i st₃ hu
          obtain ⟨hc, hst'⟩ := Prod.mk.injEq .. ▸ Option.some.inj hstep
          rw [← hst']
          show hasEntry st₃.Q (some (ustate percept)) (some x) = true
          exact hupd _ _ _ _ _ _ _ hu (some (ustate percept)) (some x) hst1

/-- C10: after any successful `step` on a non-empty action set whose
exploration function is one of the two provided strategies (with any
entry-preserving update rule — the repository's TD and SARSA rules are
entry-preserving, last conjunct), `Q[state]` has an explicit entry for
every action of `actions(state)`: both strategies read each candidate's
utility through the default-0 `Q[state]` table, inserting missing entries
on read, so such a state never presents an empty utility mapping when it
later appears as a successor. -/
theorem step_populates_entries [DecidableEq S] [DecidableEq A] :
    (∀ (V : Type) [LinearOrder V] [Zero V] (opt : V) (min_n : ℕ)
      (update : UpdF S A V), updatePreserves update →
      ∀ (R : Type) (actionsOf : S → List A) (ustate : R → S) (tf : ℕ → V)
        (st : LState S A V) (percept : R) (c : Option A) (st' : LState S A V),
        step (at_least_n_times_exploration opt min_n) update actionsOf ustate tf
          st percept = some (c, st') →
        ∀ x ∈ actionsOf (ustate percept),
          hasEntry st'.Q (some (ustate percept)) (some x) = true) ∧
    (∀ (choiceIdx : ℕ) (r : ℝ) (update : UpdF S A ℝ), updatePreserves update →
      ∀ (R : Type) (actionsOf : S → List A) (ustate : R → S) (tf : ℕ → ℝ)
        (st : LState S A ℝ) (percept : R) (c : Option A) (st' : LState S A ℝ),
        step (boltzmann_exploration choiceIdx r) update actionsOf ustate tf st
          percept = some (c, st') →
        ∀ x ∈ actionsOf (ustate percept),
          hasEntry st'.Q (some (ustate percept)) (some x) = true) ∧
    (∀ (V : Type) [LinearOrderedField V] (df : V) (tf : ℕ → V),
      updatePreserves (update_rule_TD (S := S) (A := A) df tf) ∧
      updatePreserves (update_rule_SARSA (S := S) (A := A) df tf)) := by
  refine ⟨?_, ?_, ?_⟩
  · intro V _ _ opt min_n update hupd R actionsOf ustate tf st percept c st' hstep x hx
    exact step_explore_entries _ update
      (fun actions utilities temp counter act d' hE =>
        at_least_result_table opt min_n actions utilities temp counter act d' hE)
      hupd actionsOf ustate tf st percept c st' hstep x hx
  · intro choiceIdx r update hupd R actionsOf ustate tf st percept c st' hstep x hx
    exact step_explore_entries _ update
      (fun actions utilities temp counter act d' hE =>
        boltzmann_result_table choiceIdx r actions utilities temp counter act d' hE)
      hupd actionsOf ustate tf st percept c st' hstep x hx
  · intro V _ df tf
    exact ⟨update_preserves_TD df tf, update_preserves_SARSA df tf⟩

theorem c10updNone_preserves : updatePreserves c10updNone := by
  intro s a r cs ca st st' h k k' hk
  exact absurd h (by simp [c10updNone])

theorem c10updNoneR_preserves : updatePreserves c10updNoneR := by
  intro s a r cs ca st st' h k k' hk
  exact absurd h (by simp [c10updNoneR])

theorem c10A_eval :
    step (at_least_n_times_exploration (1 : ℚ) 1) c10updNone (fun _ => [0, 1]) id
      (fun _ => 1) (initLState ℕ ℕ ℚ) 0 = some (some 0, c10stA) := by
  decide

theorem c10B_eval :
    step (boltzmann_exploration 0 0) c10updNoneR (fun _ => [0, 1]) id
      (fun _ => 1) (initLState ℕ ℕ ℝ) 0 = some (some 0, c10stB) := by
  simp only [step, initLState, boltzmann_exploration, readAll, DD.getV, DD.getM,
    DD.find, DD.empty, DD.set, setE, lookupD, pyMax, pyMin, List.foldl, id, c10stB]
  norm_num

/-- Witness for C10: one step of a fresh learner over actions `[0, 1]`,
once with the optimistic-count strategy (rational utilities) and once
with the Boltzmann strategy (real utilities); in both final states
`Q[0]` has explicit entries for actions 0 and 1. -/
theorem step_populates_entries_witness :
    hasEntry c10stA.Q (some 0) (some 0) = true ∧
    hasEntry c10stA.Q (some 0) (some 1) = true ∧
    hasEntry c10stB.Q (some 0) (some 0) = true ∧
    hasEntry c10stB.Q (some 0) (some 1) = true := by
  have hA := (step_populates_entries (S := ℕ) (A := ℕ)).1 ℚ 1 1 c10updNone
    c10updNone_preserves ℕ (fun _ => [0, 1]) id (fun _ => 1) (initLState ℕ ℕ ℚ) 0
    (some 0) c10stA c10A_eval
  have hB := (step_populates_entries (S := ℕ) (A := ℕ)).2.1 0 0 c10updNoneR
    c10updNoneR_preserves ℕ (fun _ => [0, 1]) id (fun _ => 1) (initLState ℕ ℕ ℝ) 0
    (some 0) c10stB c10B_eval
  exact ⟨hA 0 (by decide), hA 1 (by decide), hB 0 (by decide), hB 1 (by decide)⟩

end SimpleAI
